import Mathlib

/-
Verification development for the harvest-cli-utility repository.

The repository's core logic (src/cmd/list.go, src/pkg/config/config.go) is
shallowly embedded below.  Calendar dates are modelled as year/month/day
triples of integers; the conversions between dates and absolute day counts
model the civil-calendar arithmetic of Go's time package (time.Date
normalization, AddDate, Before/After/Equal, Weekday), which the repository
uses as an external collaborator.  Hours (Go float64) are modelled as
rational numbers, so sums and differences are exact.

Integer division and remainder below are Euclidean (Lean's Int notation);
Go's % is truncated division, but the only remainder uses in the modelled
code are divisibility tests (x % n == 0), on which the two conventions
agree.
-/

set_option maxHeartbeats 1000000

namespace HarvestCLI

/-- A calendar date, the projection of a Go time.Time value at midnight:
year, month and day fields as returned by Year(), Month(), Day(). -/
structure Date where
  y : Int
  m : Int
  d : Int
deriving DecidableEq

/-- Leap-year rule of the proleptic Gregorian calendar, as in Go
time.isLeap: year%4 == 0 && (year%100 != 0 || year%400 == 0). -/
def isLeap (y : Int) : Bool :=
  (y % 4 == 0) && (y % 100 != 0 || y % 400 == 0)

/-- Number of days in a month, as in Go time.daysIn (and as computed by the
source's idiom time.Date(y, m+1, 0).Day(), day zero of the next month being
the last day of month m). -/
def daysInMonth (y m : Int) : Int :=
  if m = 2 then (if isLeap y then 29 else 28)
  else if m = 4 ∨ m = 6 ∨ m = 9 ∨ m = 11 then 30
  else 31

/-- Days since 1970-01-01 of the civil date (y, m, d).  The month must be
normalized (1..12); the day may be arbitrary (Go time.Date accepts and
normalizes out-of-range days, e.g. day 0 is the last day of the previous
month).  This is the standard days-from-civil computation and agrees with
the absolute-day arithmetic inside Go's time package. -/
def dfc (y m d : Int) : Int :=
  let yy := if m ≤ 2 then y - 1 else y
  let mm := if m ≤ 2 then m + 9 else m - 3
  365 * yy + yy / 4 - yy / 100 + yy / 400 + (153 * mm + 2) / 5 + d - 1 - 719468

/-- Absolute day count (days since 1970-01-01) of a date whose fields are
already normalized; this is the instant Go compares with Before/After/Equal. -/
def Date.toDays (t : Date) : Int := dfc t.y t.m t.d

/-- Days since 1970-01-01 of a possibly denormalized (y, m, d) triple: the
month is first brought into 1..12 (floor division, exactly Go's month
normalization), then the day offset is applied.  This is the instant
denoted by Go time.Date(y, m, d, 0, 0, 0, 0, loc). -/
def dfcNorm (y m d : Int) : Int :=
  dfc (y + (m - 1) / 12) ((m - 1) % 12 + 1) d

/-- Linear month index: months since January of year 0.  The first day of
the month with index i is the date (i / 12, i % 12 + 1, 1). -/
def firstOfIdx (i : Int) : Date := ⟨i / 12, i % 12 + 1, 1⟩

/-- Absolute day count of the first day of month index i. -/
def TF (i : Int) : Int := (firstOfIdx i).toDays

/-- Scan upward from month index j until z falls inside the month
(fuel-bounded; the fuel supplied by callers is always sufficient). -/
def findMonth (z : Int) : Nat → Int → Int
  | 0, j => j
  | fuel + 1, j => if TF (j + 1) ≤ z then findMonth z fuel (j + 1) else j

/-- Normalized civil date of an absolute day count; models the
civil-from-days conversion inside Go's time package (Go computes the same
calendar via closed-form era arithmetic; here the month is located by a
monotone scan from a provably correct lower bound, which yields the same
proleptic Gregorian calendar). -/
def ofDays (z : Int) : Date :=
  let j0 := 12 * ((400 * (z + 719468)) / 146097 - 1)
  let j := findMonth z (z - TF j0).toNat j0
  ⟨j / 12, j % 12 + 1, z - TF j + 1⟩

/-- Go time.Date(y, m, d, 0, 0, 0, 0, loc): build the normalized date for a
possibly denormalized triple. -/
def mkDate (y m d : Int) : Date := ofDays (dfcNorm y m d)

/-- Go t.AddDate(years, months, days), which is defined as
time.Date(t.Year()+years, t.Month()+months, t.Day()+days, ...). -/
def Date.addDate (t : Date) (years months days : Int) : Date :=
  mkDate (t.y + years) (t.m + months) (t.d + days)

/-- A date is valid when its fields are an actual calendar date (what every
Go time.Time projects to). -/
def ValidDate (t : Date) : Prop :=
  1 ≤ t.m ∧ t.m ≤ 12 ∧ 1 ≤ t.d ∧ t.d ≤ daysInMonth t.y t.m

instance (t : Date) : Decidable (ValidDate t) := by
  unfold ValidDate; infer_instance

/-! ### Embedding of src/cmd/list.go and src/pkg/config/config.go -/

/-- Go Weekday() of a date (0 = Sunday .. 6 = Saturday), a function of the
absolute day count; day 0 (1970-01-01) was a Thursday. -/
def goWeekday (t : Date) : Int := (t.toDays + 4) % 7

/-- Start-of-week computation of handleWeeklySummary (src/cmd/list.go):
Sunday (weekday 0) is treated as day 7 of its week, and the date is moved
back by weekday - 1 days via AddDate(0, 0, -(weekday-1)). -/
def handleWeeklyStart (t : Date) : Date :=
  let weekday := goWeekday t
  let weekday := if weekday = 0 then 7 else weekday
  t.addDate 0 0 (-(weekday - 1))

/-- End-of-week computation of showWeeklySummary: start plus six days. -/
def showWeeklyEnd (startDate : Date) : Date := startDate.addDate 0 0 6

/-- The loop of calculateMonthsBetween (src/cmd/list.go), iterating
currentMonth while it is before the end instant and counting the
iterations whose next month still lies on or before the end.  currentMonth
is tracked by its month index: Go's time.Date(start.Year(),
start.Month(), 1, ...) is the date firstOfIdx (monthIdx start), and
currentMonth.AddDate(0, 1, 0) advances the index by one.  The recursion is
fuel-bounded; the fuel supplied by the caller is always sufficient because
each month is at least 28 days long. -/
def countCM (endDays : Int) : Nat → Int → Nat
  | 0, _ => 0
  | fuel + 1, i =>
    if (firstOfIdx i).toDays < endDays then
      (if (firstOfIdx (i + 1)).toDays ≤ endDays then 1 else 0) + countCM endDays fuel (i + 1)
    else 0

/-- Linear month index of a date (months since January of year 0). -/
def monthIdx (t : Date) : Int := 12 * t.y + t.m - 1

/-- calculateMonthsBetween (src/cmd/list.go): 0 when end <= start;
otherwise the complete-month count of the loop above plus a partial-month
fraction end.Day() / daysIn(end.Month(), end.Year()) when start advanced
by the complete months (AddDate(0, completeMonths, 0)) is still strictly
before end. -/
def calculateMonthsBetween (start stop : Date) : ℚ :=
  if stop.toDays ≤ start.toDays then 0
  else
    let completeMonths :=
      countCM stop.toDays (stop.toDays - TF (monthIdx start)).toNat (monthIdx start)
    let fracMonth : ℚ :=
      if (start.addDate 0 (completeMonths : Int) 0).toDays < stop.toDays then
        (stop.d : ℚ) / (daysInMonth stop.y stop.m : ℚ)
      else 0
    (completeMonths : ℚ) + fracMonth

/-- A Harvest time entry, restricted to the fields the summary logic reads
(entry.Project.Name, entry.Task.Name, entry.Task.ID, entry.Hours). -/
structure TimeEntry where
  projectName : String
  taskName : String
  taskId : Int
  hours : ℚ
deriving DecidableEq

/-- Application configuration (src/pkg/config/config.go), restricted to
the fields the summary logic reads; API credentials, the project list and
the default project/task play no role in the aggregation code. -/
structure Config where
  YearStartDate : String
  MonthlyCapacityHours : ℚ
  BillableTaskIDs : List Int
deriving DecidableEq

/-- Config.GetMonthlyCapacityHours: 160 when the configured value is
unset or not positive. -/
def Config.GetMonthlyCapacityHours (c : Config) : ℚ :=
  if c.MonthlyCapacityHours ≤ 0 then 160 else c.MonthlyCapacityHours

/-- Config.IsBillableTask: true for every task when no billable task ids
are configured, otherwise a linear scan of the configured ids. -/
def Config.IsBillableTask (c : Config) (taskID : Int) : Bool :=
  if c.BillableTaskIDs.length = 0 then true
  else c.BillableTaskIDs.contains taskID

/-- Digit accumulator of strconv.Atoi over the character list of the
input. -/
def digitsVal (cs : List Char) : Int :=
  cs.foldl (fun acc c => acc * 10 + ((c.toNat : Int) - 48)) 0

/-- Models Go strconv.Atoi on the inputs relevant here: an optional sign
followed by at least one digit, all digits; none on any other shape.
Machine-word overflow is not modelled (the parsed fields are two-digit
numbers).  Strings are processed as their character lists. -/
def goAtoi (cs : List Char) : Option Int :=
  let neg := match cs with
    | c :: _ => c == '-'
    | [] => false
  let digits := match cs with
    | c :: rest => if c == '-' || c == '+' then rest else cs
    | [] => cs
  if digits.length = 0 || !(digits.all Char.isDigit) then none
  else some (if neg then -(digitsVal digits) else digitsVal digits)

/-- Go strings.Split on the single-character separator of the MM-DD
format, processed at the character level. -/
def splitDash (cs : List Char) : List (List Char) :=
  match cs with
  | [] => [[]]
  | c :: rest =>
    if c == '-' then [] :: splitDash rest
    else
      match splitDash rest with
      | [] => [[c]]
      | g :: gs => (c :: g) :: gs

/-- Config.GetYearStartDate (src/pkg/config/config.go): default (1, 1)
when unset; otherwise split MM-DD on the dash and parse both fields,
requiring month in 1..12 and day in 1..31 (the day is not checked against
the specific month). -/
def Config.GetYearStartDate (c : Config) : Except String (Int × Int) :=
  if c.YearStartDate = ("") then Except.ok (1, 1)
  else
    match splitDash c.YearStartDate.data with
    | [p0, p1] =>
      match goAtoi p0 with
      | none => Except.error (("invalid month in year_start_date: ") ++ String.mk p0)
      | some month =>
        if month < 1 ∨ 12 < month then
          Except.error (("invalid month in year_start_date: ") ++ String.mk p0)
        else
          match goAtoi p1 with
          | none => Except.error (("invalid day in year_start_date: ") ++ String.mk p1)
          | some day =>
            if day < 1 ∨ 31 < day then
              Except.error (("invalid day in year_start_date: ") ++ String.mk p1)
            else Except.ok (month, day)
    | _ =>
      Except.error (("invalid year_start_date format: ") ++ c.YearStartDate
        ++ (", expected MM-DD"))

instance : DecidableEq (Except String (Int × Int)) := fun a b =>
  match a, b with
  | Except.ok x, Except.ok y =>
    if h : x = y then isTrue (by rw [h]) else isFalse (fun hc => h (Except.ok.inj hc))
  | Except.ok _, Except.error _ => isFalse (fun hc => Except.noConfusion hc)
  | Except.error _, Except.ok _ => isFalse (fun hc => Except.noConfusion hc)
  | Except.error a, Except.error b =>
    if h : a = b then isTrue (by rw [h])
    else isFalse (fun hc => h (Except.error.inj hc))

/-- Go map update m[k] += v on a map modelled as an association list
(new keys are appended; display order is re-sorted separately, mirroring
the sort.Strings calls in the source). -/
def bump (m : List (String × ℚ)) (k : String) (v : ℚ) : List (String × ℚ) :=
  match m with
  | [] => [(k, v)]
  | (k', v') :: rest => if k' = k then (k', v' + v) :: rest else (k', v') :: bump rest k v

/-- Sum of the values of an association-list map. -/
def sumVals (m : List (String × ℚ)) : ℚ := (m.map Prod.snd).sum

/-- Accumulators of the entry-processing loop shared by showMonthlySummary
and handleYearlySummary (src/cmd/list.go). -/
structure Totals where
  taskSummaries : List (String × ℚ)
  billableTaskSummaries : List (String × ℚ)
  nonBillableTaskSummaries : List (String × ℚ)
  projectHours : List (String × ℚ)
  totalHours : ℚ
  billableHours : ℚ
deriving DecidableEq

def emptyTotals : Totals := ⟨[], [], [], [], 0, 0⟩

/-- One iteration of the entry-processing loop: accumulate into the task,
project and total sums, then into the billable or the non-billable bucket
according to IsBillableTask. -/
def processEntry (cfg : Config) (acc : Totals) (e : TimeEntry) : Totals :=
  let acc := { acc with
    taskSummaries := bump acc.taskSummaries e.taskName e.hours
    projectHours := bump acc.projectHours e.projectName e.hours
    totalHours := acc.totalHours + e.hours }
  if cfg.IsBillableTask e.taskId then
    { acc with
      billableHours := acc.billableHours + e.hours
      billableTaskSummaries := bump acc.billableTaskSummaries e.taskName e.hours }
  else
    { acc with
      nonBillableTaskSummaries := bump acc.nonBillableTaskSummaries e.taskName e.hours }

/-- The entry-processing loop over a fetched entry list. -/
def processEntries (cfg : Config) (entries : List TimeEntry) : Totals :=
  entries.foldl (processEntry cfg) emptyTotals

/-- ProjectSummary (src/cmd/list.go): per-project task map and total. -/
structure ProjectSummary where
  ProjectName : String
  TaskSummaries : List (String × ℚ)
  TotalHours : ℚ
deriving DecidableEq

/-- Go map read m[k] with ok flag, on the association-list model. -/
def lookupProject (m : List (String × ProjectSummary)) (k : String) : Option ProjectSummary :=
  match m with
  | [] => none
  | (k', v) :: rest => if k' = k then some v else lookupProject rest k

/-- Go map write m[k] = v, on the association-list model. -/
def setProject (m : List (String × ProjectSummary)) (k : String) (v : ProjectSummary) :
    List (String × ProjectSummary) :=
  match m with
  | [] => [(k, v)]
  | (k', v') :: rest => if k' = k then (k', v) :: rest else (k', v') :: setProject rest k v

/-- Loop body of groupTimeEntriesByProject (src/cmd/list.go): fetch or
create the project summary, accumulate the entry's hours into its task map
and total, and store it back. -/
def groupStep (m : List (String × ProjectSummary)) (e : TimeEntry) :
    List (String × ProjectSummary) :=
  let summary := (lookupProject m e.projectName).getD ⟨e.projectName, [], 0⟩
  let summary := { summary with
    TaskSummaries := bump summary.TaskSummaries e.taskName e.hours
    TotalHours := summary.TotalHours + e.hours }
  setProject m e.projectName summary

/-- groupTimeEntriesByProject (src/cmd/list.go). -/
def groupTimeEntriesByProject (entries : List TimeEntry) : List (String × ProjectSummary) :=
  entries.foldl groupStep []

/-- Sum of the per-project totals of a grouped summary map. -/
def sumTotals (m : List (String × ProjectSummary)) : ℚ :=
  (m.map (fun kv => kv.2.TotalHours)).sum

/-- Insertion step of the by-name display sort. -/
def insertSorted (x : String × ℚ) : List (String × ℚ) → List (String × ℚ)
  | [] => [x]
  | y :: ys => if x.1 ≤ y.1 then x :: y :: ys else y :: insertSorted x ys

/-- Display ordering: task and project rows are printed sorted by name
(the sort.Strings calls in the source). -/
def sortByKey (l : List (String × ℚ)) : List (String × ℚ) := l.foldr insertSorted []

/-- One printed row of the billable-tasks table. -/
structure TaskRow where
  task : String
  hours : ℚ
  percentOfTotal : ℚ
  percentOfCapacity : ℚ
deriving DecidableEq

/-- The data rendered by showMonthlySummary: capacity metrics and the
billable-task and project tables. -/
structure MonthlyReport where
  periodLength : ℚ
  periodCapacity : ℚ
  totalHours : ℚ
  billableHours : ℚ
  leaveHours : ℚ
  leaveDays : ℚ
  billableRows : List TaskRow
  totalBillableRow : TaskRow
  projectRows : List (String × ℚ × ℚ)
deriving DecidableEq

/-- Period length of the monthly summary (src/cmd/list.go):
calculateMonthsBetween(startDate, endDate.AddDate(0, 0, 1)) with
endDate = startDate.AddDate(0, 1, -1). -/
def monthlyPeriodLength (startDate : Date) : ℚ :=
  calculateMonthsBetween startDate ((startDate.addDate 0 1 (-1)).addDate 0 0 1)

/-- Period capacity of the monthly summary: monthly capacity times the
period length in months. -/
def monthlyPeriodCapacity (cfg : Config) (startDate : Date) : ℚ :=
  cfg.GetMonthlyCapacityHours * monthlyPeriodLength startDate

/-- showMonthlySummary (src/cmd/list.go), as the data it renders; none
models the early "no time entries found" return.  Division in ℚ is total,
so a zero denominator yields 0 where Go float64 yields NaN; either way the
modelled code performs these divisions unconditionally, with no guard. -/
def showMonthlySummary (cfg : Config) (startDate : Date) (entries : List TimeEntry) :
    Option MonthlyReport :=
  if entries.length = 0 then none
  else
    let periodLength := monthlyPeriodLength startDate
    let periodCapacity := monthlyPeriodCapacity cfg startDate
    let t := processEntries cfg entries
    let leaveHours := t.billableHours - periodCapacity
    let leaveDays := leaveHours / 8
    let billableRows := (sortByKey t.billableTaskSummaries).map (fun kv =>
      (⟨kv.1, kv.2, kv.2 / t.totalHours * 100, kv.2 / periodCapacity * 100⟩ : TaskRow))
    let totalRow : TaskRow := ⟨("TOTAL BILLABLE"), t.billableHours,
      t.billableHours / t.totalHours * 100, t.billableHours / periodCapacity * 100⟩
    let projectRows := (sortByKey t.projectHours).map (fun kv =>
      (kv.1, kv.2, kv.2 / t.totalHours * 100))
    some ⟨periodLength, periodCapacity, t.totalHours, t.billableHours, leaveHours,
      leaveDays, billableRows, totalRow, projectRows⟩

/-- The resolved yearly period: start and end dates and the display label. -/
structure YearRange where
  yearStart : Date
  yearEnd : Date
  label : String
deriving DecidableEq

/-- Period computation of handleYearlySummary (src/cmd/list.go): candidate
anchor in the reference year, shifted back one year when the reference
date precedes it; end is the next cycle's anchor minus one day, clamped to
now; label is the anchor year, or anchorYear/anchorYear+1 for a
non-January-1st fiscal start. -/
def handleYearlyRange (targetDate : Date) (startMonth startDay : Int) (now : Date) :
    YearRange :=
  let currentYear := targetDate.y
  let yearStart := mkDate currentYear startMonth startDay
  let yearStart :=
    if targetDate.toDays < yearStart.toDays then mkDate (currentYear - 1) startMonth startDay
    else yearStart
  let yearEnd := (mkDate (yearStart.y + 1) startMonth startDay).addDate 0 0 (-1)
  let yearEnd := if now.toDays < yearEnd.toDays then now else yearEnd
  let label :=
    if startMonth = 1 ∧ startDay = 1 then toString yearStart.y
    else toString yearStart.y ++ ("/") ++ toString (yearStart.y + 1)
  ⟨yearStart, yearEnd, label⟩

/-- Spec-side definition (following the specification's words, for
comparison with calculateMonthsBetween): the number of whole calendar
months fully contained in the half-open interval from start to stop, i.e.
months whose first day is on or after start and whose next month's first
day is on or before stop. -/
def specWholeMonths (start stop : Date) : Nat :=
  ((List.range (monthIdx stop - monthIdx start + 1).toNat).map
    (fun n : Nat => monthIdx start + (n : Int))).countP
    (fun j => decide (start.toDays ≤ TF j ∧ TF (j + 1) ≤ stop.toDays))

/-! ### Basic calendar lemmas -/

theorem dfc_day_shift (y m d : Int) : dfc y m d = dfc y m 1 + d - 1 := by
  unfold dfc
  dsimp only
  split_ifs <;> ring

theorem dfc_next_month (y m : Int) (h1 : 1 ≤ m) (h2 : m ≤ 12) :
    (if m = 12 then dfc (y + 1) 1 1 else dfc y (m + 1) 1) =
      dfc y m 1 + daysInMonth y m := by
  interval_cases m <;>
    simp only [dfc, daysInMonth, isLeap, Bool.and_eq_true, Bool.or_eq_true,
      beq_iff_eq, bne_iff_ne, ne_eq] <;>
    norm_num <;>
    omega

theorem TF_succ_dim (i : Int) :
    TF (i + 1) = TF i + daysInMonth (i / 12) (i % 12 + 1) := by
  have h0 : 0 ≤ i % 12 := Int.emod_nonneg i (by norm_num)
  have h1 : i % 12 < 12 := Int.emod_lt_of_pos i (by norm_num)
  have key := dfc_next_month (i / 12) (i % 12 + 1) (by omega) (by omega)
  by_cases hr : i % 12 = 11
  · rw [if_pos (by omega)] at key
    show dfc ((i + 1) / 12) ((i + 1) % 12 + 1) 1 =
      dfc (i / 12) (i % 12 + 1) 1 + daysInMonth (i / 12) (i % 12 + 1)
    have e1 : (i + 1) / 12 = i / 12 + 1 := by omega
    have e2 : (i + 1) % 12 + 1 = 1 := by omega
    rw [e1, e2, key]
  · rw [if_neg (by omega)] at key
    show dfc ((i + 1) / 12) ((i + 1) % 12 + 1) 1 =
      dfc (i / 12) (i % 12 + 1) 1 + daysInMonth (i / 12) (i % 12 + 1)
    have e1 : (i + 1) / 12 = i / 12 := by omega
    have e2 : (i + 1) % 12 + 1 = i % 12 + 1 + 1 := by omega
    rw [e1, e2, key]

theorem dim_ge (y m : Int) : 28 ≤ daysInMonth y m := by
  unfold daysInMonth
  split_ifs <;> omega

theorem dim_le (y m : Int) : daysInMonth y m ≤ 31 := by
  unfold daysInMonth
  split_ifs <;> omega

theorem TF_step (i : Int) : TF i + 28 ≤ TF (i + 1) := by
  have h := TF_succ_dim i
  have h2 := dim_ge (i / 12) (i % 12 + 1)
  omega

theorem TF_add_le (i : Int) : ∀ n : Nat, TF i + 28 * (n : Int) ≤ TF (i + (n : Int))
  | 0 => by norm_num
  | n + 1 => by
    have h1 := TF_add_le i n
    have h2 := TF_step (i + (n : Int))
    have e : (i + ((n : Nat) + 1 : Int)) = (i + (n : Int)) + 1 := by ring
    push_cast
    rw [e]
    omega

theorem TF_mono_lt {i j : Int} (h : i < j) : TF i < TF j := by
  have hn : j = i + (((j - i).toNat : Int)) := by omega
  have h1 := TF_add_le i (j - i).toNat
  have h28 : (28 : Int) * ((j - i).toNat : Int) ≥ 28 := by omega
  rw [hn]
  omega

theorem TF_mono_le {i j : Int} (h : i ≤ j) : TF i ≤ TF j := by
  rcases lt_or_eq_of_le h with h' | h'
  · exact le_of_lt (TF_mono_lt h')
  · rw [h']

theorem findMonth_spec (z : Int) :
    ∀ (fuel : Nat) (j : Int), TF j ≤ z → z - TF j ≤ (fuel : Int) →
      TF (findMonth z fuel j) ≤ z ∧ z < TF (findMonth z fuel j + 1)
  | 0, j, hj, hfuel => by
    refine ⟨hj, ?_⟩
    have := TF_step j
    simp only [findMonth]
    omega
  | fuel + 1, j, hj, hfuel => by
    simp only [findMonth]
    split_ifs with h
    · have hstep := TF_step j
      exact findMonth_spec z fuel (j + 1) h (by push_cast at hfuel ⊢; omega)
    · exact ⟨hj, by omega⟩

theorem TF_j0_le (z : Int) :
    TF (12 * ((400 * (z + 719468)) / 146097 - 1)) ≤ z := by
  have e1 : (12 * ((400 * (z + 719468)) / 146097 - 1)) / 12 =
      (400 * (z + 719468)) / 146097 - 1 := by omega
  have e2 : (12 * ((400 * (z + 719468)) / 146097 - 1)) % 12 = 0 := by omega
  unfold TF firstOfIdx Date.toDays
  dsimp only
  rw [e1, e2]
  unfold dfc
  norm_num
  omega

theorem ofDays_sandwich (z : Int) :
    ∃ j : Int, ofDays z = ⟨j / 12, j % 12 + 1, z - TF j + 1⟩ ∧
      TF j ≤ z ∧ z < TF (j + 1) := by
  refine ⟨findMonth z (z - TF (12 * ((400 * (z + 719468)) / 146097 - 1))).toNat
    (12 * ((400 * (z + 719468)) / 146097 - 1)), rfl, ?_⟩
  apply findMonth_spec
  · exact TF_j0_le z
  · have := TF_j0_le z
    omega

theorem toDays_ofDays (z : Int) : (ofDays z).toDays = z := by
  obtain ⟨j, hj, h1, h2⟩ := ofDays_sandwich z
  rw [hj]
  show dfc (j / 12) (j % 12 + 1) (z - TF j + 1) = z
  rw [dfc_day_shift]
  show TF j + (z - TF j + 1) - 1 = z
  ring

theorem ofDays_valid (z : Int) : ValidDate (ofDays z) := by
  obtain ⟨j, hj, h1, h2⟩ := ofDays_sandwich z
  rw [hj]
  have hgap := TF_succ_dim j
  have hm0 : 0 ≤ j % 12 := Int.emod_nonneg j (by norm_num)
  have hm1 : j % 12 < 12 := Int.emod_lt_of_pos j (by norm_num)
  unfold ValidDate
  dsimp only
  exact ⟨by omega, by omega, by omega, by omega⟩

theorem mkDate_valid (y m d : Int) : ValidDate (mkDate y m d) := ofDays_valid _

theorem toDays_mkDate (y m d : Int) : (mkDate y m d).toDays = dfcNorm y m d :=
  toDays_ofDays _

theorem dfcNorm_eq_dfc (y m d : Int) (h1 : 1 ≤ m) (h2 : m ≤ 12) :
    dfcNorm y m d = dfc y m d := by
  unfold dfcNorm
  have e1 : (m - 1) / 12 = 0 := by omega
  have e2 : (m - 1) % 12 + 1 = m := by omega
  rw [e1, e2]
  norm_num

theorem dfcNorm_day_shift (y m d : Int) : dfcNorm y m d = dfcNorm y m 1 + d - 1 := by
  unfold dfcNorm
  rw [dfc_day_shift]

theorem toDays_addDate_days (t : Date) (h1 : 1 ≤ t.m) (h2 : t.m ≤ 12) (k : Int) :
    (t.addDate 0 0 k).toDays = t.toDays + k := by
  show (mkDate (t.y + 0) (t.m + 0) (t.d + k)).toDays = _
  rw [toDays_mkDate]
  rw [show t.y + 0 = t.y by ring, show t.m + 0 = t.m by ring]
  rw [dfcNorm_eq_dfc _ _ _ h1 h2]
  show dfc t.y t.m (t.d + k) = dfc t.y t.m t.d + k
  rw [dfc_day_shift t.y t.m (t.d + k), dfc_day_shift t.y t.m t.d]
  ring

theorem dfcNorm_first (y mm : Int) : dfcNorm y (mm + 1) 1 = TF (12 * y + mm) := by
  unfold dfcNorm TF firstOfIdx Date.toDays
  dsimp only
  have e1 : y + (mm + 1 - 1) / 12 = (12 * y + mm) / 12 := by omega
  have e2 : (mm + 1 - 1) % 12 + 1 = (12 * y + mm) % 12 + 1 := by omega
  rw [e1, e2]

theorem monthIdx_div (t : Date) (h1 : 1 ≤ t.m) (h2 : t.m ≤ 12) :
    monthIdx t / 12 = t.y ∧ monthIdx t % 12 + 1 = t.m := by
  unfold monthIdx
  constructor <;> omega

theorem TF_monthIdx (t : Date) (h1 : 1 ≤ t.m) (h2 : t.m ≤ 12) :
    TF (monthIdx t) = dfc t.y t.m 1 := by
  obtain ⟨e1, e2⟩ := monthIdx_div t h1 h2
  show dfc (monthIdx t / 12) (monthIdx t % 12 + 1) 1 = dfc t.y t.m 1
  rw [e1, e2]

theorem toDays_lower (t : Date) (h : ValidDate t) : TF (monthIdx t) ≤ t.toDays := by
  obtain ⟨h1, h2, h3, h4⟩ := h
  rw [TF_monthIdx t h1 h2]
  show dfc t.y t.m 1 ≤ dfc t.y t.m t.d
  rw [dfc_day_shift t.y t.m t.d]
  omega

theorem toDays_upper (t : Date) (h : ValidDate t) : t.toDays < TF (monthIdx t + 1) := by
  obtain ⟨h1, h2, h3, h4⟩ := h
  have hgap := TF_succ_dim (monthIdx t)
  obtain ⟨e1, e2⟩ := monthIdx_div t h1 h2
  rw [e1, e2] at hgap
  have hfirst := TF_monthIdx t h1 h2
  have hday : t.toDays = dfc t.y t.m 1 + t.d - 1 := dfc_day_shift t.y t.m t.d
  omega

theorem monthIdx_le_of_lt (s e : Date) (hs : ValidDate s) (he : ValidDate e)
    (hlt : s.toDays < e.toDays) : monthIdx s ≤ monthIdx e := by
  by_contra h
  have h1 : monthIdx e + 1 ≤ monthIdx s := by omega
  have h2 := TF_mono_le h1
  have h3 := toDays_upper e he
  have h4 := toDays_lower s hs
  omega

theorem countCM_eq (E ME : Int) (hlo : TF ME ≤ E) (hhi : E < TF (ME + 1)) :
    ∀ (fuel : Nat) (i : Int), E - TF i ≤ (fuel : Int) →
      countCM E fuel i = (ME - i).toNat
  | 0, i, hfuel => by
    have hge : ME ≤ i := by
      by_contra h
      have := TF_mono_le (show i + 1 ≤ ME by omega)
      have := TF_step i
      omega
    simp only [countCM]
    omega
  | fuel + 1, i, hfuel => by
    show (if (firstOfIdx i).toDays < E then
        (if (firstOfIdx (i + 1)).toDays ≤ E then 1 else 0) + countCM E fuel (i + 1)
      else 0) = (ME - i).toNat
    show (if TF i < E then (if TF (i + 1) ≤ E then 1 else 0) + countCM E fuel (i + 1)
      else 0) = (ME - i).toNat
    split_ifs with hg hn
    · have hi1 : i + 1 ≤ ME := by
        by_contra h
        have := TF_mono_le (show ME + 1 ≤ i + 1 by omega)
        omega
      have hrec := countCM_eq E ME hlo hhi fuel (i + 1) (by
        have := TF_step i
        push_cast at hfuel ⊢
        omega)
      rw [hrec]
      omega
    · have hi_le : i ≤ ME := by
        by_contra h
        have := TF_mono_le (show ME + 1 ≤ i by omega)
        omega
      have hi_ge : ME ≤ i := by
        by_contra h
        have := TF_mono_le (show i + 1 ≤ ME by omega)
        omega
      have hrec := countCM_eq E ME hlo hhi fuel (i + 1) (by omega)
      rw [hrec]
      omega
    · have hge : ME ≤ i := by
        by_contra h
        have := TF_mono_lt (show i < ME by omega)
        omega
      omega

/-- Closed form of calculateMonthsBetween on valid dates with start < end:
the complete-month count is the month-index difference (the number of
whole calendar months contained in the interval from the first day of
start's month to end), and the partial fraction is added exactly when
start shifted by that many months still precedes end. -/
theorem calculateMonthsBetween_eq (s e : Date) (hs : ValidDate s) (he : ValidDate e)
    (hlt : s.toDays < e.toDays) :
    calculateMonthsBetween s e =
      ((monthIdx e - monthIdx s : Int) : ℚ) +
        (if (s.addDate 0 (monthIdx e - monthIdx s) 0).toDays < e.toDays
         then (e.d : ℚ) / (daysInMonth e.y e.m : ℚ) else 0) := by
  unfold calculateMonthsBetween
  rw [if_neg (by omega)]
  have hlo := toDays_lower e he
  have hhi := toDays_upper e he
  have hCM := countCM_eq e.toDays (monthIdx e) hlo hhi
    (e.toDays - TF (monthIdx s)).toNat (monthIdx s) (by omega)
  have hle := monthIdx_le_of_lt s e hs he hlt
  simp only [hCM]
  rw [Int.toNat_of_nonneg (by omega)]
  norm_num
  have hc : ((monthIdx e - monthIdx s).toNat : ℤ) = monthIdx e - monthIdx s :=
    Int.toNat_of_nonneg (by omega)
  exact_mod_cast hc

/-- The monthly summary's period, first of month m to first of the next
month, has calculateMonthsBetween exactly 1. -/
theorem monthlyPeriodLength_one (y m : Int) (h1 : 1 ≤ m) (h2 : m ≤ 12) :
    monthlyPeriodLength ⟨y, m, 1⟩ = 1 := by
  have ht1 : ((⟨y, m, 1⟩ : Date).addDate 0 1 (-1)) = mkDate y (m + 1) 0 := by
    show mkDate (y + 0) (m + 1) (1 + -1) = mkDate y (m + 1) 0
    norm_num
  have hstop : (((⟨y, m, 1⟩ : Date).addDate 0 1 (-1)).addDate 0 0 1).toDays =
      TF (12 * y + m) := by
    rw [ht1]
    have hv := mkDate_valid y (m + 1) 0
    rw [toDays_addDate_days _ hv.1 hv.2.1 1, toDays_mkDate]
    rw [dfcNorm_day_shift y (m + 1) 0, dfcNorm_first y m]
    ring
  have hstart : (⟨y, m, 1⟩ : Date).toDays = TF (12 * y + m - 1) := by
    have h := TF_monthIdx ⟨y, m, 1⟩ h1 h2
    have e : monthIdx ⟨y, m, 1⟩ = 12 * y + m - 1 := by unfold monthIdx; dsimp only
    rw [e] at h
    exact h.symm
  have haddm : ((⟨y, m, 1⟩ : Date).addDate 0 1 0).toDays = TF (12 * y + m) := by
    show (mkDate (y + 0) (m + 1) ((1 : Int) + 0)).toDays = _
    rw [toDays_mkDate]
    rw [show y + 0 = y by ring, show (1 : Int) + 0 = 1 by ring]
    exact dfcNorm_first y m
  unfold monthlyPeriodLength calculateMonthsBetween
  rw [hstop, hstart]
  have hlt := TF_mono_lt (show 12 * y + m - 1 < 12 * y + m by omega)
  rw [if_neg (by omega)]
  have hm1 : monthIdx ⟨y, m, 1⟩ = 12 * y + m - 1 := by unfold monthIdx; dsimp only
  rw [hm1]
  have hCM := countCM_eq (TF (12 * y + m)) (12 * y + m) le_rfl
    (TF_mono_lt (by omega)) (TF (12 * y + m) - TF (12 * y + m - 1)).toNat
    (12 * y + m - 1) (by omega)
  rw [show 12 * y + m - (12 * y + m - 1) = 1 by ring] at hCM
  simp only [hCM]
  norm_num
  rw [haddm]
  simp

/-! ### Aggregation lemmas -/

theorem sumVals_bump (m : List (String × ℚ)) (k : String) (v : ℚ) :
    sumVals (bump m k v) = sumVals m + v := by
  induction m with
  | nil => simp [bump, sumVals]
  | cons kv rest ih =>
    obtain ⟨k', v'⟩ := kv
    simp only [bump]
    split_ifs with h
    · simp only [sumVals, List.map_cons, List.sum_cons]
      ring
    · simp only [sumVals, List.map_cons, List.sum_cons] at ih ⊢
      rw [ih]
      ring

theorem processEntry_fields (cfg : Config) (acc : Totals) (e : TimeEntry) :
    (processEntry cfg acc e).totalHours = acc.totalHours + e.hours ∧
    (processEntry cfg acc e).billableHours =
      (if cfg.IsBillableTask e.taskId then acc.billableHours + e.hours
       else acc.billableHours) ∧
    (processEntry cfg acc e).nonBillableTaskSummaries =
      (if cfg.IsBillableTask e.taskId then acc.nonBillableTaskSummaries
       else bump acc.nonBillableTaskSummaries e.taskName e.hours) := by
  unfold processEntry
  dsimp only
  split_ifs with h <;> exact ⟨rfl, rfl, rfl⟩

theorem processEntries_spec (cfg : Config) :
    ∀ (entries : List TimeEntry) (acc : Totals),
      (entries.foldl (processEntry cfg) acc).totalHours
          = acc.totalHours + (entries.map (fun e => e.hours)).sum ∧
      (entries.foldl (processEntry cfg) acc).billableHours
          = acc.billableHours +
            ((entries.filter (fun e => cfg.IsBillableTask e.taskId)).map
              (fun e => e.hours)).sum ∧
      sumVals (entries.foldl (processEntry cfg) acc).nonBillableTaskSummaries
          = sumVals acc.nonBillableTaskSummaries +
            ((entries.filter (fun e => !cfg.IsBillableTask e.taskId)).map
              (fun e => e.hours)).sum
  | [], acc => by simp
  | e :: rest, acc => by
    obtain ⟨f1, f2, f3⟩ := processEntry_fields cfg acc e
    obtain ⟨i1, i2, i3⟩ := processEntries_spec cfg rest (processEntry cfg acc e)
    refine ⟨?_, ?_, ?_⟩
    · rw [List.foldl_cons, i1, f1]
      simp only [List.map_cons, List.sum_cons]
      ring
    · rw [List.foldl_cons, i2, f2]
      by_cases hb : cfg.IsBillableTask e.taskId = true
      · simp [List.filter_cons, hb]
        try ring
      · simp [List.filter_cons, hb]
        try ring
    · rw [List.foldl_cons, i3, f3]
      by_cases hb : cfg.IsBillableTask e.taskId = true
      · simp [List.filter_cons, hb]
        try ring
      · simp [List.filter_cons, hb, sumVals_bump]
        try ring

theorem lookupProject_mem (m : List (String × ProjectSummary)) (k : String)
    (s : ProjectSummary) (h : lookupProject m k = some s) : (k, s) ∈ m := by
  induction m with
  | nil => simp [lookupProject] at h
  | cons kv rest ih =>
    obtain ⟨k', v⟩ := kv
    simp only [lookupProject] at h
    split_ifs at h with he
    · obtain rfl : v = s := by injection h
      subst he
      exact List.mem_cons_self _ _
    · exact List.mem_cons_of_mem _ (ih h)

theorem mem_setProject (m : List (String × ProjectSummary)) (k : String)
    (v : ProjectSummary) (p : String × ProjectSummary) (hp : p ∈ setProject m k v) :
    p.2 = v ∨ p ∈ m := by
  induction m with
  | nil =>
    simp only [setProject, List.mem_singleton] at hp
    subst hp
    exact Or.inl rfl
  | cons kv rest ih =>
    obtain ⟨k', v'⟩ := kv
    simp only [setProject] at hp
    split_ifs at hp with he
    · rcases List.mem_cons.mp hp with h | h
      · subst h
        exact Or.inl rfl
      · exact Or.inr (List.mem_cons_of_mem _ h)
    · rcases List.mem_cons.mp hp with h | h
      · subst h
        exact Or.inr (List.mem_cons_self _ _)
      · rcases ih h with h' | h'
        · exact Or.inl h'
        · exact Or.inr (List.mem_cons_of_mem _ h')

theorem sumTotals_setProject (m : List (String × ProjectSummary)) (k : String)
    (v : ProjectSummary) :
    sumTotals (setProject m k v) =
      sumTotals m + v.TotalHours -
        ((lookupProject m k).elim 0 (fun s => s.TotalHours)) := by
  induction m with
  | nil => simp [setProject, lookupProject, sumTotals]
  | cons kv rest ih =>
    obtain ⟨k', v'⟩ := kv
    simp only [setProject, lookupProject]
    split_ifs with he
    · simp only [sumTotals, List.map_cons, List.sum_cons, Option.elim]
      ring
    · simp only [sumTotals, List.map_cons, List.sum_cons] at ih ⊢
      rw [ih]
      ring

theorem groupStep_total (m : List (String × ProjectSummary)) (e : TimeEntry) :
    sumTotals (groupStep m e) = sumTotals m + e.hours := by
  unfold groupStep
  dsimp only
  rw [sumTotals_setProject]
  cases hl : lookupProject m e.projectName with
  | none => simp [hl]
  | some s =>
    simp only [hl, Option.getD_some, Option.elim]
    ring

theorem groupFold_total : ∀ (entries : List TimeEntry) (acc : List (String × ProjectSummary)),
    sumTotals (entries.foldl groupStep acc) =
      sumTotals acc + (entries.map (fun e => e.hours)).sum
  | [], acc => by simp
  | e :: rest, acc => by
    rw [List.foldl_cons, groupFold_total rest (groupStep acc e), groupStep_total]
    simp only [List.map_cons, List.sum_cons]
    ring

theorem groupStep_inv (m : List (String × ProjectSummary)) (e : TimeEntry)
    (hm : ∀ kv ∈ m, kv.2.TotalHours = sumVals kv.2.TaskSummaries) :
    ∀ kv ∈ groupStep m e, kv.2.TotalHours = sumVals kv.2.TaskSummaries := by
  intro kv hkv
  unfold groupStep at hkv
  dsimp only at hkv
  rcases mem_setProject _ _ _ kv hkv with h | h
  · rw [h]
    dsimp only
    rw [sumVals_bump]
    cases hl : lookupProject m e.projectName with
    | none => simp [hl, sumVals]
    | some s =>
      have hs := hm _ (lookupProject_mem _ _ _ hl)
      simp only [hl, Option.getD_some]
      rw [hs]
  · exact hm kv h

theorem groupFold_inv :
    ∀ (entries : List TimeEntry) (acc : List (String × ProjectSummary)),
      (∀ kv ∈ acc, kv.2.TotalHours = sumVals kv.2.TaskSummaries) →
      ∀ kv ∈ entries.foldl groupStep acc, kv.2.TotalHours = sumVals kv.2.TaskSummaries
  | [], acc, hacc => hacc
  | e :: rest, acc, hacc => by
    rw [List.foldl_cons]
    exact groupFold_inv rest (groupStep acc e) (groupStep_inv acc e hacc)

theorem sum_filter_partition (p : TimeEntry → Bool) :
    ∀ l : List TimeEntry,
      ((l.filter p).map (fun e => e.hours)).sum +
          ((l.filter (fun e => !p e)).map (fun e => e.hours)).sum =
        (l.map (fun e => e.hours)).sum
  | [] => by simp
  | e :: rest => by
    have ih := sum_filter_partition p rest
    by_cases hb : p e = true
    · simp [List.filter_cons, hb]
      linarith [ih]
    · simp [List.filter_cons, hb]
      linarith [ih]

theorem countP_range_map (f : Nat → Int) (p : Int → Bool) (K : Nat)
    (h : ∀ n : Nat, p (f n) = decide (n < K)) :
    ∀ N : Nat, ((List.range N).map f).countP p = min N K
  | 0 => by simp
  | N + 1 => by
    rw [List.range_succ, List.map_append, List.countP_append,
      countP_range_map f p K h N]
    simp only [List.map_cons, List.map_nil, List.countP_cons, List.countP_nil]
    rw [h N]
    by_cases hN : N < K
    · simp [hN]
      omega
    · simp [hN]
      omega

/-- The month-index difference equals the count, following the spec's
words, of whole calendar months contained between the first day of start's
month and the end date. -/
theorem specWholeMonths_firstOf (s e : Date) (hs : ValidDate s) (he : ValidDate e)
    (hlt : s.toDays < e.toDays) :
    specWholeMonths (firstOfIdx (monthIdx s)) e = (monthIdx e - monthIdx s).toNat := by
  have hmi : monthIdx (firstOfIdx (monthIdx s)) = monthIdx s := by
    unfold monthIdx firstOfIdx
    dsimp only
    omega
  have hle := monthIdx_le_of_lt s e hs he hlt
  have hlo := toDays_lower e he
  have hhi := toDays_upper e he
  unfold specWholeMonths
  rw [hmi]
  have hpt : ∀ n : Nat,
      (fun j => decide ((firstOfIdx (monthIdx s)).toDays ≤ TF j ∧ TF (j + 1) ≤ e.toDays))
          ((fun n : Nat => monthIdx s + (n : Int)) n) =
        decide (n < (monthIdx e - monthIdx s).toNat) := by
    intro n
    show decide ((firstOfIdx (monthIdx s)).toDays ≤ TF (monthIdx s + (n : Int)) ∧
        TF (monthIdx s + (n : Int) + 1) ≤ e.toDays) =
      decide (n < (monthIdx e - monthIdx s).toNat)
    rw [decide_eq_decide]
    have hstart : (firstOfIdx (monthIdx s)).toDays = TF (monthIdx s) := rfl
    constructor
    · rintro ⟨h1', h2'⟩
      by_contra hcon
      have hge : monthIdx e + 1 ≤ monthIdx s + (n : Int) + 1 := by omega
      have := TF_mono_le hge
      omega
    · intro hK
      refine ⟨TF_mono_le (by omega), ?_⟩
      have hle2 : monthIdx s + (n : Int) + 1 ≤ monthIdx e := by omega
      have := TF_mono_le hle2
      omega
  rw [countP_range_map (fun n : Nat => monthIdx s + (n : Int))
    (fun j => decide ((firstOfIdx (monthIdx s)).toDays ≤ TF j ∧ TF (j + 1) ≤ e.toDays))
    (monthIdx e - monthIdx s).toNat hpt]
  omega

/-! ### Claim theorems -/

/-- C1, counterexample to the claim as stated: on start 2024-01-15,
end 2024-03-10 the code returns 2.0, while the number of whole calendar
months fully contained in the half-open interval from start to end is 1
(February only), so the claimed value is 1 plus possibly the trailing
remainder 10/31 — neither equals 2. -/
theorem c1_counterexample :
    calculateMonthsBetween ⟨2024, 1, 15⟩ ⟨2024, 3, 10⟩ = 2 ∧
    specWholeMonths ⟨2024, 1, 15⟩ ⟨2024, 3, 10⟩ = 1 ∧
    daysInMonth 2024 3 = 31 ∧
    (2 : ℚ) ≠ (1 : ℚ) + (10 : ℚ) / 31 ∧ (2 : ℚ) ≠ (1 : ℚ) := by
  refine ⟨?_, by decide, by decide, by norm_num, by norm_num⟩
  unfold calculateMonthsBetween
  rw [if_neg (by decide)]
  have hc : countCM (⟨2024, 3, 10⟩ : Date).toDays
      (((⟨2024, 3, 10⟩ : Date).toDays - TF (monthIdx ⟨2024, 1, 15⟩)).toNat)
      (monthIdx ⟨2024, 1, 15⟩) = 2 := by decide
  simp only [hc]
  rw [if_neg (by decide)]
  norm_num

/-- C1 (amended): for valid dates, calculateMonthsBetween returns 0 when
end <= start; otherwise it returns the month-index difference — which is
the number of whole calendar months fully contained between the FIRST DAY
OF START'S MONTH and end (not between start and end) — plus the fractional
remainder end.day / daysInMonth(end) exactly when start advanced by that
many months (Go AddDate normalization) is still strictly before end; in
particular monthsBetween(2024-01-01, 2024-04-01) = 3.0. -/
theorem c1_months_between (s e : Date) (hs : ValidDate s) (he : ValidDate e) :
    (e.toDays ≤ s.toDays → calculateMonthsBetween s e = 0) ∧
    (s.toDays < e.toDays →
      calculateMonthsBetween s e =
        ((monthIdx e - monthIdx s : Int) : ℚ) +
          (if (s.addDate 0 (monthIdx e - monthIdx s) 0).toDays < e.toDays
           then (e.d : ℚ) / (daysInMonth e.y e.m : ℚ) else 0)) ∧
    (s.toDays < e.toDays →
      specWholeMonths (firstOfIdx (monthIdx s)) e = (monthIdx e - monthIdx s).toNat) ∧
    calculateMonthsBetween ⟨2024, 1, 1⟩ ⟨2024, 4, 1⟩ = 3 := by
  refine ⟨?_, fun h => calculateMonthsBetween_eq s e hs he h,
    fun h => specWholeMonths_firstOf s e hs he h, ?_⟩
  · intro h
    unfold calculateMonthsBetween
    rw [if_pos h]
  · unfold calculateMonthsBetween
    rw [if_neg (by decide)]
    have hc : countCM (⟨2024, 4, 1⟩ : Date).toDays
        (((⟨2024, 4, 1⟩ : Date).toDays - TF (monthIdx ⟨2024, 1, 1⟩)).toNat)
        (monthIdx ⟨2024, 1, 1⟩) = 3 := by decide
    simp only [hc]
    rw [if_neg (by decide)]
    norm_num

/-- C1 witness: the amended theorem applied at 2024-01-01 and 2024-04-01
gives exactly 3 whole months and a matching spec-side count. -/
theorem c1_witness :
    calculateMonthsBetween ⟨2024, 1, 1⟩ ⟨2024, 4, 1⟩ = 3 ∧
    specWholeMonths (firstOfIdx (monthIdx ⟨2024, 1, 1⟩)) ⟨2024, 4, 1⟩ = 3 := by
  have h := c1_months_between ⟨2024, 1, 1⟩ ⟨2024, 4, 1⟩ (by decide) (by decide)
  refine ⟨h.2.2.2, ?_⟩
  have h2 := h.2.2.1 (by decide)
  rw [h2]
  decide

/-- C2: the monthly capacity metrics compute overtimeOrRemainingHours as
billableHours - periodCapacityHours with periodCapacityHours the monthly
capacity times the period length, and overtimeOrRemainingDays as
overtimeOrRemainingHours / 8; with monthlyCapacityHours 160 and 180
billable hours over one calendar month the results are exactly 20.0 hours
and 2.5 days. -/
theorem c2_capacity_report (cfg : Config) (entries : List TimeEntry) (y m : Int)
    (h1 : 1 ≤ m) (h2 : m ≤ 12) (hne : entries.length ≠ 0) :
    ∃ r, showMonthlySummary cfg ⟨y, m, 1⟩ entries = some r ∧
      r.leaveHours = r.billableHours - r.periodCapacity ∧
      r.leaveDays = r.leaveHours / 8 ∧
      r.periodCapacity = cfg.GetMonthlyCapacityHours ∧
      (cfg.MonthlyCapacityHours = 160 → r.billableHours = 180 →
        r.leaveHours = 20 ∧ r.leaveDays = 5 / 2) := by
  have hPL := monthlyPeriodLength_one y m h1 h2
  have hPC : monthlyPeriodCapacity cfg ⟨y, m, 1⟩ = cfg.GetMonthlyCapacityHours := by
    unfold monthlyPeriodCapacity
    rw [hPL, mul_one]
  refine ⟨⟨monthlyPeriodLength ⟨y, m, 1⟩, monthlyPeriodCapacity cfg ⟨y, m, 1⟩,
    (processEntries cfg entries).totalHours, (processEntries cfg entries).billableHours,
    (processEntries cfg entries).billableHours - monthlyPeriodCapacity cfg ⟨y, m, 1⟩,
    ((processEntries cfg entries).billableHours - monthlyPeriodCapacity cfg ⟨y, m, 1⟩) / 8,
    (sortByKey (processEntries cfg entries).billableTaskSummaries).map (fun kv =>
      (⟨kv.1, kv.2, kv.2 / (processEntries cfg entries).totalHours * 100,
        kv.2 / monthlyPeriodCapacity cfg ⟨y, m, 1⟩ * 100⟩ : TaskRow)),
    ⟨("TOTAL BILLABLE"), (processEntries cfg entries).billableHours,
      (processEntries cfg entries).billableHours /
        (processEntries cfg entries).totalHours * 100,
      (processEntries cfg entries).billableHours /
        monthlyPeriodCapacity cfg ⟨y, m, 1⟩ * 100⟩,
    (sortByKey (processEntries cfg entries).projectHours).map (fun kv =>
      (kv.1, kv.2, kv.2 / (processEntries cfg entries).totalHours * 100))⟩,
    ?_, rfl, rfl, hPC, ?_⟩
  · unfold showMonthlySummary
    rw [if_neg hne]
  · intro hcap hbill
    have hcapv : cfg.GetMonthlyCapacityHours = 160 := by
      unfold Config.GetMonthlyCapacityHours
      rw [hcap]
      norm_num
    have hbill' : (processEntries cfg entries).billableHours = 180 := hbill
    constructor
    · show (processEntries cfg entries).billableHours -
        monthlyPeriodCapacity cfg ⟨y, m, 1⟩ = 20
      rw [hbill', hPC, hcapv]
      norm_num
    · show ((processEntries cfg entries).billableHours -
        monthlyPeriodCapacity cfg ⟨y, m, 1⟩) / 8 = 5 / 2
      rw [hbill', hPC, hcapv]
      norm_num

/-- C2 witness: a single 180-hour billable entry in January 2024 with
capacity 160 yields overtime exactly 20 hours and 2.5 days. -/
theorem c2_witness :
    ∃ r, showMonthlySummary ⟨(""), 160, []⟩ ⟨2024, 1, 1⟩ [⟨("P"), ("T"), 1, 180⟩] =
        some r ∧ r.leaveHours = 20 ∧ r.leaveDays = 5 / 2 := by
  obtain ⟨r, hr, hA, hB, hC, hD⟩ :=
    c2_capacity_report ⟨(""), 160, []⟩ [⟨("P"), ("T"), 1, 180⟩] 2024 1
      (by norm_num) (by norm_num) (by decide)
  have hbill : r.billableHours = 180 := by
    unfold showMonthlySummary at hr
    rw [if_neg (by decide)] at hr
    have hre := Option.some.inj hr
    rw [← hre]
    show (processEntries _ _).billableHours = 180
    simp [processEntries, processEntry, emptyTotals, Config.IsBillableTask]
  obtain ⟨h20, h52⟩ := hD rfl hbill
  exact ⟨r, hr, h20, h52⟩

/-- C3: the code performs the percentage divisions unconditionally.  At a
nonempty entry list with zero total hours the monthly summary is still a
fully numeric report (not a sentinel or a skipped row): each percentage of
total is computed as hours / 0 * 100 (NaN in Go's float64; 0 in this exact
embedding), with totalHours = 0. -/
theorem c3_code_eval :
    showMonthlySummary ⟨(""), 160, []⟩ ⟨2024, 1, 1⟩ [⟨("P"), ("T"), 7, 0⟩] =
      some ⟨1, 160, 0, 0, -160, -20,
        [⟨("T"), 0, 0, 0⟩], ⟨("TOTAL BILLABLE"), 0, 0, 0⟩, [(("P"), 0, 0)]⟩ := by
  have hPL := monthlyPeriodLength_one 2024 1 (by norm_num) (by norm_num)
  unfold showMonthlySummary monthlyPeriodCapacity
  rw [if_neg (by decide), hPL]
  simp [processEntries, processEntry, emptyTotals, Config.IsBillableTask,
    Config.GetMonthlyCapacityHours, sortByKey, insertSorted, bump]
  norm_num

/-- C4: with an empty billable-task set every task is billable; with a
non-empty set a task is billable exactly when its id is a member. -/
theorem c4_is_billable (c : Config) (id : Int) :
    (c.BillableTaskIDs = [] → c.IsBillableTask id = true) ∧
    (c.BillableTaskIDs ≠ [] → (c.IsBillableTask id = true ↔ id ∈ c.BillableTaskIDs)) := by
  unfold Config.IsBillableTask
  constructor
  · intro h
    rw [h]
    norm_num
  · intro h
    rw [if_neg (by simp [h])]
    exact List.elem_iff

/-- C4 witness: the empty-set sentinel and the membership case at concrete
inputs. -/
theorem c4_witness :
    Config.IsBillableTask ⟨(""), 160, []⟩ 5 = true ∧
    (Config.IsBillableTask ⟨(""), 160, [7]⟩ 7 = true ↔
      7 ∈ (⟨(""), 160, [7]⟩ : Config).BillableTaskIDs) :=
  ⟨(c4_is_billable ⟨(""), 160, []⟩ 5).1 rfl,
   (c4_is_billable ⟨(""), 160, [7]⟩ 7).2 (by decide)⟩

/-- C5: the yearly range anchors at date(ref.year, month, day), shifts the
anchor back one year exactly when the reference date strictly precedes it,
ends at the next cycle's anchor minus one day clamped to now, and labels
the range with the plain anchor year for a January 1st start and with
anchorYear/anchorYear+1 otherwise; resolveYear(2024-02-15, 4, 1) starts at
2023-04-01 with label 2023/2024. -/
theorem c5_yearly_range (t now : Date) (sm sd : Int) :
    ((t.toDays < (mkDate t.y sm sd).toDays →
        (handleYearlyRange t sm sd now).yearStart = mkDate (t.y - 1) sm sd) ∧
      ((mkDate t.y sm sd).toDays ≤ t.toDays →
        (handleYearlyRange t sm sd now).yearStart = mkDate t.y sm sd)) ∧
    (handleYearlyRange t sm sd now).yearEnd.toDays =
      min ((mkDate ((handleYearlyRange t sm sd now).yearStart.y + 1) sm sd).toDays - 1)
        now.toDays ∧
    (handleYearlyRange t sm sd now).label =
      (if sm = 1 ∧ sd = 1 then toString (handleYearlyRange t sm sd now).yearStart.y
        else toString (handleYearlyRange t sm sd now).yearStart.y ++ ("/")
          ++ toString ((handleYearlyRange t sm sd now).yearStart.y + 1)) ∧
    handleYearlyRange ⟨2024, 2, 15⟩ 4 1 ⟨2024, 2, 15⟩ =
      ⟨⟨2023, 4, 1⟩, ⟨2024, 2, 15⟩, ("2023/2024")⟩ := by
  have hsub : ∀ Y : Int,
      ((mkDate Y sm sd).addDate 0 0 (-1)).toDays = (mkDate Y sm sd).toDays - 1 := by
    intro Y
    have hv := mkDate_valid Y sm sd
    have h := toDays_addDate_days (mkDate Y sm sd) hv.1 hv.2.1 (-1)
    omega
  refine ⟨⟨?_, ?_⟩, ?_, ?_, by decide⟩
  · intro h
    unfold handleYearlyRange
    dsimp only
    rw [if_pos h]
  · intro h
    unfold handleYearlyRange
    dsimp only
    rw [if_neg (by omega)]
  · unfold handleYearlyRange
    dsimp only
    split_ifs with hc hn hn <;>
      first
      | (have h' := hsub ((mkDate (t.y - 1) sm sd).y + 1); omega)
      | (have h' := hsub ((mkDate t.y sm sd).y + 1); omega)
  · rfl

/-- C5 witness: the anchor-shift branch applied at the concrete example
date 2024-02-15 with fiscal start April 1st. -/
theorem c5_witness :
    (handleYearlyRange ⟨2024, 2, 15⟩ 4 1 ⟨2024, 2, 15⟩).yearStart =
      mkDate (2024 - 1) 4 1 :=
  (c5_yearly_range ⟨2024, 2, 15⟩ ⟨2024, 2, 15⟩ 4 1).1.1 (by decide)

/-- C6: the weekly range starts at the Monday on or before the reference
date (Sunday counting as day 7 of its own week, so a Sunday maps to the
previous Monday), ends six days later on the following Sunday, and always
contains the reference date. -/
theorem c6_weekly_range (t : Date) (h : ValidDate t) :
    goWeekday (handleWeeklyStart t) = 1 ∧
    goWeekday (showWeeklyEnd (handleWeeklyStart t)) = 0 ∧
    (showWeeklyEnd (handleWeeklyStart t)).toDays = (handleWeeklyStart t).toDays + 6 ∧
    (handleWeeklyStart t).toDays ≤ t.toDays ∧
    t.toDays ≤ (showWeeklyEnd (handleWeeklyStart t)).toDays ∧
    (goWeekday t = 0 → (handleWeeklyStart t).toDays = t.toDays - 6) := by
  obtain ⟨h1, h2, h3, h4⟩ := h
  have hsv : ValidDate (handleWeeklyStart t) := mkDate_valid _ _ _
  have hs : (handleWeeklyStart t).toDays =
      t.toDays + (-((if goWeekday t = 0 then 7 else goWeekday t) - 1)) :=
    toDays_addDate_days t h1 h2 _
  have he : (showWeeklyEnd (handleWeeklyStart t)).toDays =
      (handleWeeklyStart t).toDays + 6 :=
    toDays_addDate_days _ hsv.1 hsv.2.1 6
  have hw : goWeekday t = (t.toDays + 4) % 7 := rfl
  have hws : goWeekday (handleWeeklyStart t) =
      ((handleWeeklyStart t).toDays + 4) % 7 := rfl
  have hwe : goWeekday (showWeeklyEnd (handleWeeklyStart t)) =
      ((showWeeklyEnd (handleWeeklyStart t)).toDays + 4) % 7 := rfl
  by_cases h0 : goWeekday t = 0
  · rw [if_pos h0] at hs
    refine ⟨?_, ?_, he, ?_, ?_, ?_⟩ <;> omega
  · rw [if_neg h0] at hs
    refine ⟨?_, ?_, he, ?_, ?_, ?_⟩ <;> omega

/-- C6 witness: on Sunday 2024-03-10 the week is Monday 2024-03-04 through
Sunday 2024-03-10. -/
theorem c6_witness :
    goWeekday (handleWeeklyStart ⟨2024, 3, 10⟩) = 1 ∧
    (handleWeeklyStart ⟨2024, 3, 10⟩).toDays = (⟨2024, 3, 10⟩ : Date).toDays - 6 := by
  have h := c6_weekly_range ⟨2024, 3, 10⟩ (by decide)
  exact ⟨h.1, h.2.2.2.2.2 (by decide)⟩

/-- C7: the entry-processing loop assigns every entry to exactly one
bucket — billable exactly when IsBillableTask holds, i.e. the set is empty
or contains the task id — and billableHours plus the non-billable hours
equals totalHours exactly. -/
theorem c7_classify_partition (cfg : Config) (entries : List TimeEntry) :
    (processEntries cfg entries).billableHours +
        sumVals (processEntries cfg entries).nonBillableTaskSummaries =
      (processEntries cfg entries).totalHours ∧
    (processEntries cfg entries).billableHours =
      ((entries.filter (fun e => cfg.IsBillableTask e.taskId)).map
        (fun e => e.hours)).sum ∧
    sumVals (processEntries cfg entries).nonBillableTaskSummaries =
      ((entries.filter (fun e => !cfg.IsBillableTask e.taskId)).map
        (fun e => e.hours)).sum := by
  obtain ⟨i1, i2, i3⟩ := processEntries_spec cfg entries emptyTotals
  have i1' : (processEntries cfg entries).totalHours =
      (entries.map (fun e => e.hours)).sum := by
    unfold processEntries
    rw [i1]
    norm_num [emptyTotals]
  have i2' : (processEntries cfg entries).billableHours =
      ((entries.filter (fun e => cfg.IsBillableTask e.taskId)).map
        (fun e => e.hours)).sum := by
    unfold processEntries
    rw [i2]
    norm_num [emptyTotals]
  have i3' : sumVals (processEntries cfg entries).nonBillableTaskSummaries =
      ((entries.filter (fun e => !cfg.IsBillableTask e.taskId)).map
        (fun e => e.hours)).sum := by
    unfold processEntries
    rw [i3]
    norm_num [emptyTotals, sumVals]
  refine ⟨?_, i2', i3'⟩
  rw [i1', i2', i3']
  exact sum_filter_partition _ entries

/-- C8: in the grouped project summaries every project total equals the
sum of its per-task hours, and the grand total over projects equals the
sum of all entry hours, exactly. -/
theorem c8_group_invariant (entries : List TimeEntry) :
    (∀ kv ∈ groupTimeEntriesByProject entries,
        kv.2.TotalHours = sumVals kv.2.TaskSummaries) ∧
    sumTotals (groupTimeEntriesByProject entries) =
      (entries.map (fun e => e.hours)).sum := by
  constructor
  · exact groupFold_inv entries [] (by simp)
  · have h := groupFold_total entries []
    unfold groupTimeEntriesByProject
    rw [h]
    norm_num [sumTotals]

/-- C8 witness: a single entry groups into one project whose total equals
its task sum. -/
theorem c8_witness :
    ((("P"), (⟨("P"), [(("T"), 2)], 2⟩ : ProjectSummary)) ∈
        groupTimeEntriesByProject [⟨("P"), ("T"), 1, 2⟩]) ∧
    (⟨("P"), [(("T"), 2)], 2⟩ : ProjectSummary).TotalHours =
      sumVals (⟨("P"), [(("T"), 2)], 2⟩ : ProjectSummary).TaskSummaries := by
  have hmem : (("P"), (⟨("P"), [(("T"), 2)], 2⟩ : ProjectSummary)) ∈
      groupTimeEntriesByProject [⟨("P"), ("T"), 1, 2⟩] := by
    simp [groupTimeEntriesByProject, groupStep, lookupProject, setProject, bump]
  exact ⟨hmem, (c8_group_invariant [⟨("P"), ("T"), 1, 2⟩]).1 _ hmem⟩

/-- C9, counterexample to the claim as stated: year_start 02-30 has a day
that is invalid for February in every year (February has at most 29 days),
yet GetYearStartDate accepts it and returns (2, 30) instead of an
invalid-configuration error. -/
theorem c9_counterexample :
    Config.GetYearStartDate ⟨("02-30"), 160, []⟩ = Except.ok (2, 30) ∧
    daysInMonth 2024 2 = 29 ∧ daysInMonth 2023 2 = 28 := by
  refine ⟨by decide, by decide, by decide⟩

/-- C9 (amended): for every configuration, GetYearStartDate validates
only that the month is in 1..12 and the day is in 1..31.  An unset value
defaults to (1, 1); a value that does not split into exactly two dash
parts, or whose month or day part does not parse as a number, is rejected
with an error, as are out-of-bounds months and days; and whenever both
parts parse within those bounds the configuration is accepted with
(month, day) — with no condition relating the day to the specific month's
length, so a day invalid for its month but within 1..31, such as 02-30,
is accepted and reaches period resolution. -/
theorem c9_year_start_validation (c : Config) :
    (c.YearStartDate = ("") → c.GetYearStartDate = Except.ok (1, 1)) ∧
    (∀ parts, c.YearStartDate ≠ ("") → splitDash c.YearStartDate.data = parts →
      parts.length ≠ 2 → ∃ e, c.GetYearStartDate = Except.error e) ∧
    (∀ p0 p1, c.YearStartDate ≠ ("") → splitDash c.YearStartDate.data = [p0, p1] →
      goAtoi p0 = none → ∃ e, c.GetYearStartDate = Except.error e) ∧
    (∀ p0 p1 month, c.YearStartDate ≠ ("") → splitDash c.YearStartDate.data = [p0, p1] →
      goAtoi p0 = some month → (month < 1 ∨ 12 < month) →
      ∃ e, c.GetYearStartDate = Except.error e) ∧
    (∀ p0 p1 month, c.YearStartDate ≠ ("") → splitDash c.YearStartDate.data = [p0, p1] →
      goAtoi p0 = some month → 1 ≤ month → month ≤ 12 → goAtoi p1 = none →
      ∃ e, c.GetYearStartDate = Except.error e) ∧
    (∀ p0 p1 month day, c.YearStartDate ≠ ("") →
      splitDash c.YearStartDate.data = [p0, p1] →
      goAtoi p0 = some month → 1 ≤ month → month ≤ 12 → goAtoi p1 = some day →
      (day < 1 ∨ 31 < day) → ∃ e, c.GetYearStartDate = Except.error e) ∧
    (∀ p0 p1 month day, c.YearStartDate ≠ ("") →
      splitDash c.YearStartDate.data = [p0, p1] →
      goAtoi p0 = some month → 1 ≤ month → month ≤ 12 → goAtoi p1 = some day →
      1 ≤ day → day ≤ 31 → c.GetYearStartDate = Except.ok (month, day)) := by
  refine ⟨?_, ?_, ?_, ?_, ?_, ?_, ?_⟩
  · intro h
    unfold Config.GetYearStartDate
    rw [if_pos h]
  · intro parts hne hsplit hlen
    unfold Config.GetYearStartDate
    rw [if_neg hne, hsplit]
    rcases parts with _ | ⟨a, _ | ⟨b, _ | ⟨x, rest⟩⟩⟩
    · exact ⟨_, rfl⟩
    · exact ⟨_, rfl⟩
    · exact absurd rfl hlen
    · exact ⟨_, rfl⟩
  · intro p0 p1 hne hsplit hm
    unfold Config.GetYearStartDate
    rw [if_neg hne, hsplit]
    dsimp only
    rw [hm]
    exact ⟨_, rfl⟩
  · intro p0 p1 month hne hsplit hm hbad
    unfold Config.GetYearStartDate
    rw [if_neg hne, hsplit]
    dsimp only
    rw [hm]
    dsimp only
    rw [if_pos hbad]
    exact ⟨_, rfl⟩
  · intro p0 p1 month hne hsplit hm hm1 hm2 hd
    unfold Config.GetYearStartDate
    rw [if_neg hne, hsplit]
    dsimp only
    rw [hm]
    dsimp only
    rw [if_neg (by omega), hd]
    exact ⟨_, rfl⟩
  · intro p0 p1 month day hne hsplit hm hm1 hm2 hd hbad
    unfold Config.GetYearStartDate
    rw [if_neg hne, hsplit]
    dsimp only
    rw [hm]
    dsimp only
    rw [if_neg (by omega), hd]
    dsimp only
    rw [if_pos hbad]
    exact ⟨_, rfl⟩
  · intro p0 p1 month day hne hsplit hm hm1 hm2 hd hd1 hd2
    unfold Config.GetYearStartDate
    rw [if_neg hne, hsplit]
    dsimp only
    rw [hm]
    dsimp only
    rw [if_neg (by omega), hd]
    dsimp only
    rw [if_neg (by omega)]

/-- C9 witness: the acceptance branch applied at the concrete 02-30
configuration (a day February never has), and the malformed-format branch
applied at a dashless value. -/
theorem c9_witness :
    Config.GetYearStartDate ⟨("02-30"), 160, []⟩ = Except.ok (2, 30) ∧
    (∃ e, Config.GetYearStartDate ⟨("0230"), 160, []⟩ = Except.error e) :=
  ⟨(c9_year_start_validation ⟨("02-30"), 160, []⟩).2.2.2.2.2.2
      [Char.ofNat 48, Char.ofNat 50] [Char.ofNat 51, Char.ofNat 48] 2 30
      (by decide) (by decide) (by decide) (by decide) (by decide) (by decide)
      (by decide) (by decide),
   (c9_year_start_validation ⟨("0230"), 160, []⟩).2.1
      [[Char.ofNat 48, Char.ofNat 50, Char.ofNat 51, Char.ofNat 48]]
      (by decide) (by decide) (by decide)⟩

/-- C10: for every calendar month of every year the monthly summary's
period length is exactly 1.0, so the monthly period capacity equals the
configured monthly capacity hours exactly. -/
theorem c10_monthly_capacity (cfg : Config) (y m : Int) (h1 : 1 ≤ m) (h2 : m ≤ 12) :
    monthlyPeriodLength ⟨y, m, 1⟩ = 1 ∧
    monthlyPeriodCapacity cfg ⟨y, m, 1⟩ = cfg.GetMonthlyCapacityHours := by
  have h := monthlyPeriodLength_one y m h1 h2
  refine ⟨h, ?_⟩
  unfold monthlyPeriodCapacity
  rw [h, mul_one]

/-- C10 witness: February 2024 (a leap month) has period length exactly 1
and period capacity 160. -/
theorem c10_witness :
    monthlyPeriodLength ⟨2024, 2, 1⟩ = 1 ∧
    monthlyPeriodCapacity ⟨(""), 160, []⟩ ⟨2024, 2, 1⟩ =
      Config.GetMonthlyCapacityHours ⟨(""), 160, []⟩ :=
  c10_monthly_capacity ⟨(""), 160, []⟩ 2024 2 (by decide) (by decide)

end HarvestCLI
